import Mathlib

/-!
Verification of the deterministic core of the Review-Guesser browser game:
the Mulberry32 seeded generator, the session record and its counter
operations, the seed-token parser, and the guess-set synthesis algorithm.
All definitions are shallow embeddings of the JavaScript source; JS numbers
are modelled exactly (all values handled by the code stay far below 2^53,
where double-precision arithmetic on integers is exact).
-/

namespace ReviewGuesser

/-! ### Mulberry32 seeded RNG (`class SeededRNG` in the source)

The JS state field starts as `seed >>> 0` and grows by `0x6d2b79f5` on every
call (JS does not wrap the stored state; the mixing pipeline reduces it mod
2^32 through the bitwise coercions of `^`, `>>>`, `|` and `Math.imul`).
`next()` returns `n / 2^32` for a 32-bit `n`; we keep the numerator `n`,
so a comparison `next() < 0.5` becomes `n < 2^31`, and
`Math.floor(next() * r)` becomes the floor of `n * r / 2^32`, both exact. -/

def M32 : Nat := 4294967296

def HALF : Nat := 2147483648

def MULBERRY_INC : Nat := 1831565813

namespace SeededRNG

/-- `new SeededRNG(seed)`: `this.state = seed >>> 0`. -/
def ofSeed (seed : Nat) : Nat := seed % M32

/-- `next()`. Returns `(new state, n)` where the JS return value is `n / 2^32`. -/
def next (state : Nat) : Nat × Nat :=
  let s := state + MULBERRY_INC
  let p := s % M32
  let t1 := ((p ^^^ (p >>> 15)) * (p ||| 1)) % M32
  let m := ((t1 ^^^ (t1 >>> 7)) * (t1 ||| 61)) % M32
  let t2 := t1 ^^^ ((t1 + m) % M32)
  (s, t2 ^^^ (t2 >>> 14))

/-- `randInt(min, max)`: `Math.floor(this.next() * (max - min + 1)) + min`.
Returns `(value, new state)`. `Int.fdiv` is floor division, matching
`Math.floor` of the (exactly computed) product. -/
def randInt (state : Nat) (min max : Int) : Int × Nat :=
  let r := next state
  (Int.fdiv ((r.2 : Int) * (max - min + 1)) (M32 : Int) + min, r.1)

end SeededRNG

/-- State of the generator after `k` discarded `next()` calls. -/
def stateAfter (s : Nat) : Nat → Nat
  | 0 => s
  | k + 1 => (SeededRNG.next (stateAfter s k)).1

/-- The `k`-th (0-indexed) 32-bit draw produced from state `s`. -/
def drawAt (s : Nat) (k : Nat) : Nat := (SeededRNG.next (stateAfter s k)).2

/-- `getRNG()` restore path: rebuild the generator from the hashed seed and
fast-forward it by `navigationCount * 10` discarded draws. -/
def restoreRNGState (seed : Nat) (navCount : Nat) : Nat :=
  stateAfter (SeededRNG.ofSeed seed) (navCount * 10)

/-! ### Guess-set synthesis (`buildGuessSet` in the source)

The JS `Set` preserves insertion order and `Array.from` reads it back in that
order, so the answer set is modelled as a duplicate-free list; `add` appends
when absent, `delete` removes the element. Loops are modelled with an explicit
fuel bounding the iteration count; each fuel value used strictly dominates the
iteration count the corresponding JS loop can reach (the downward loop divides
its cursor by ~5 from at most 2*10^11 and stops below 50; the upward and
fallback loops insert a fresh member per iteration and stop at 6 members). -/

def CAP : Int := 200000000000

def MIN_ANSWERS : Nat := 6

/-- `Math.max(0, Math.min(CAP, Math.trunc(Number(trueCount) || 0)))` for an
integral input. -/
def coerceTrue (t : Int) : Int := max 0 (min CAP t)

/-- `Set.add`: append if not already present. -/
def setAdd (l : List Int) (x : Int) : List Int := if x ∈ l then l else l ++ [x]

/-- `if (x < 0) x = 0` -/
def clampLow (x : Int) : Int := if x < 0 then 0 else x

/-- `if (next >= current) next = current - 1` (downward phase clamp). -/
def clampBelow (x current : Int) : Int := if x ≥ current then current - 1 else x

/-- `if (candidate < current + MIN_STEP_INCREASE) candidate = current + MIN_STEP_INCREASE` -/
def stepFloor (x lo : Int) : Int := if x < lo then lo else x

/-- `if (candidate > CAP) candidate = CAP` -/
def capHigh (x : Int) : Int := if x > CAP then CAP else x

/-- `Math.max(...answers)` (insertion order irrelevant for the value). -/
def listMax : List Int → Int
  | [] => 0
  | h :: t => t.foldl max h

/-- The minimum scan `values[0]` / `values[i] < minVal` over the set. -/
def listMin : List Int → Int
  | [] => 0
  | h :: t => t.foldl min h

/-- Downward phase loop body (divide by 5 with noise). Arguments mirror the
JS locals: the running answer set, the RNG state, `current`, `downCount` and
`maxDownGuesses`. -/
def downGo : Nat → List Int → Nat → Int → Int → Int → List Int × Nat
  | 0, answers, rng, _, _, _ => (answers, rng)
  | fuel + 1, answers, rng, current, downCount, maxDown =>
    if answers.length < MIN_ANSWERS ∧ downCount < maxDown then
      if current = 0 then (answers, rng)
      else
        let divided := Int.fdiv current 5
        if divided = current then (answers, rng)
        else
          let r := SeededRNG.randInt rng (-3) 3
          let next2 := clampBelow (clampLow (divided + r.1)) current
          let answers' := setAdd answers next2
          let downCount' :=
            if answers'.length > answers.length then downCount + 1 else downCount
          if next2 < 50 then (answers', r.2)
          else downGo fuel answers' r.2 next2 downCount' maxDown
    else (answers, rng)

/-- The duplicate-avoiding probe of the upward phase: nudge the candidate up
by 1 while it collides, staying below `CAP`, for at most 10 tries. -/
def probeUp (answers : List Int) : Nat → Int → Int
  | 0, candidate => candidate
  | tries + 1, candidate =>
    if candidate ∈ answers ∧ candidate < CAP then probeUp answers tries (candidate + 1)
    else candidate

/-- Upward phase loop (multiply by 5 with noise, minimum step, cap, probe). -/
def upGo : Nat → List Int → Nat → Int → Int → List Int × Nat
  | 0, answers, rng, _, _ => (answers, rng)
  | fuel + 1, answers, rng, current, minStep =>
    if answers.length < MIN_ANSWERS then
      let r := SeededRNG.randInt rng (-2) 3
      let c4 := probeUp answers 10
        (capHigh (stepFloor (clampLow (current * 5 + r.1)) (current + minStep)))
      if c4 ∈ answers then (answers, r.2)
      else upGo fuel (answers ++ [c4]) r.2 c4 minStep
    else (answers, rng)

/-- Fallback loop: `maxVal++` then add when absent, while short of 6 members
and below `CAP`. Consumes no randomness. -/
def fallbackGo : Nat → List Int → Int → List Int
  | 0, answers, _ => answers
  | fuel + 1, answers, maxVal =>
    if answers.length < MIN_ANSWERS ∧ maxVal < CAP then
      fallbackGo fuel (setAdd answers (maxVal + 1)) (maxVal + 1)
    else answers

/-- Fallback phase: only entered when still short of 6 answers. -/
def fallbackPhase (answers : List Int) : List Int :=
  if answers.length < MIN_ANSWERS then fallbackGo 8 answers (listMax answers)
  else answers

/-- The `for (const val of candidates)` loop of the lowest-option tweak:
skip (and stop) when the candidate equals the minimum, replace the minimum
with the first candidate not already present. -/
def perturbReplace (answers : List Int) (minVal : Int) : List Int → List Int
  | [] => answers
  | val :: rest =>
    if val = minVal then answers
    else if val ∈ answers then perturbReplace answers minVal rest
    else answers.erase minVal ++ [val]

/-- Lowest-option tweak: when the minimum is not the true count, one draw
below 0.5 and the minimum below 20, replace the minimum by 0 or 1 (order of
preference chosen by a second draw), keeping the set duplicate-free. The
conjunction `minVal !== TC && rng.next() < 0.5 && minVal < 20` short-circuits,
so the first draw happens only when the minimum differs from `TC`. -/
def perturbPhase (TC : Int) (answers : List Int) (rng : Nat) : List Int × Nat :=
  if answers.length > 0 then
    let minVal := listMin answers
    if minVal ≠ TC then
      let r1 := SeededRNG.next rng
      if r1.2 < HALF ∧ minVal < 20 then
        let r2 := SeededRNG.next r1.1
        let candidates : List Int := if r2.2 < HALF then [0, 1] else [1, 0]
        (perturbReplace answers minVal candidates, r2.1)
      else (answers, r1.1)
    else (answers, rng)
  else (answers, rng)

/-- The simultaneous swap `[a[i], a[j]] = [a[j], a[i]]`. -/
def swapAt (l : List Int) (i j : Nat) : List Int :=
  (l.set i (l.getD j 0)).set j (l.getD i 0)

/-- Fisher-Yates loop of `shuffle`, indexed by the running JS index `i`. -/
def shuffleGo : Nat → List Int → Nat → List Int × Nat
  | 0, l, rng => (l, rng)
  | i + 1, l, rng =>
    let r := SeededRNG.next rng
    let j := r.2 * (i + 2) / M32
    shuffleGo i (swapAt l (i + 1) j) r.1

/-- `shuffle(array)`: in-place Fisher-Yates from index `length - 1` down
to 1. -/
def shuffle (l : List Int) (rng : Nat) : List Int × Nat :=
  shuffleGo (l.length - 1) l rng

/-- `buildGuessSet` up to and including the downward phase. Also returns the
coerced true value `TC` and `MIN_STEP_INCREASE`, which later phases reuse.
The two leading `randInt` draws (40..60 and 4..5) happen unconditionally. -/
def guessSetAfterDown (t : Int) (rng0 : Nat) : (List Int × Nat) × Int × Int :=
  let TC := coerceTrue t
  let r1 := SeededRNG.randInt rng0 40 60
  let r2 := SeededRNG.randInt r1.2 4 5
  (if TC ≥ r1.1 then downGo 64 [TC] r2.2 TC 0 r2.1 else ([TC], r2.2), TC, r1.1)

/-- Full `buildGuessSet(trueCount)` pipeline, returning the final picks list
and the RNG state after the call. -/
def buildGuessSetCore (t : Int) (rng0 : Nat) : List Int × Nat :=
  let d := guessSetAfterDown t rng0
  let u := upGo 8 d.1.1 d.1.2 d.2.1 d.2.2
  let f := fallbackPhase u.1
  let p := perturbPhase d.2.1 f u.2
  shuffle p.1 p.2

/-- The list of guesses returned to the page layer. -/
def buildGuessSet (t : Int) (rng0 : Nat) : List Int := (buildGuessSetCore t rng0).1

/-! ### Seed-token parsing and session state (part_002 of the source) -/

/-- ASCII upper-casing, agreeing with JS `toUpperCase()` on the alphanumeric
seed tokens handled here. -/
def jsUpperChar (c : Char) : Char :=
  if 'a' ≤ c ∧ c ≤ 'z' then Char.ofNat (c.toNat - 32) else c

def jsToUpper (s : String) : String := String.mk (s.toList.map jsUpperChar)

/-- `String.split(sep)` for a one-character separator, on the character
list. -/
def splitOnCharAux (sep : Char) : List Char → List Char → List (List Char)
  | [], acc => [acc.reverse]
  | c :: rest, acc =>
    if c = sep then acc.reverse :: splitOnCharAux sep rest []
    else splitOnCharAux sep rest (c :: acc)

def jsSplit (s : String) (sep : Char) : List String :=
  (splitOnCharAux sep s.toList []).map String.mk

/-- JS `trim()` (the tokens at issue contain no exotic whitespace). -/
def jsIsWhite (c : Char) : Bool := c = ' ' ∨ c = '\t' ∨ c = '\n' ∨ c = '\r'

def jsTrim (s : String) : String :=
  String.mk (((s.toList.dropWhile jsIsWhite).reverse.dropWhile jsIsWhite).reverse)

/-- Accumulate the leading decimal digits (the input is already trimmed). -/
def takeDigitsAcc : List Char → Nat → Nat
  | [], acc => acc
  | c :: rest, acc =>
    if '0' ≤ c ∧ c ≤ '9' then takeDigitsAcc rest (acc * 10 + (c.toNat - 48)) else acc

/-- `parseInt(s, 10)` on a trimmed string: optional sign, then the longest
leading digit run; `none` models `NaN` (no leading digit). -/
def jsParseInt (s : String) : Option Int :=
  match s.toList with
  | [] => none
  | c :: rest =>
    if c = '-' then
      match rest with
      | d :: _ =>
        if '0' ≤ d ∧ d ≤ '9' then some (-(takeDigitsAcc rest 0 : Int)) else none
      | [] => none
    else if c = '+' then
      match rest with
      | d :: _ =>
        if '0' ≤ d ∧ d ≤ '9' then some ((takeDigitsAcc rest 0 : Int)) else none
      | [] => none
    else if '0' ≤ c ∧ c ≤ '9' then some ((takeDigitsAcc (c :: rest) 0 : Int))
    else none

structure ParsedSeed where
  seed : String
  maxGames : Option Nat
deriving DecidableEq

/-- `parseSeedWithLimit`: split on `:`, upper-case the seed, and read the
optional limit suffix; `UNLIMITED` or an empty suffix means no limit, and a
parsed value is kept only when finite and strictly positive. -/
def parseSeedWithLimit (seedString : String) : ParsedSeed :=
  let parts := jsSplit seedString ':'
  let seed := jsToUpper (parts.headD "")
  let maxGames : Option Nat :=
    if parts.length > 1 then
      let limitStr := jsToUpper (jsTrim (parts.getD 1 ""))
      if limitStr = "UNLIMITED" ∨ limitStr = "" then none
      else
        match jsParseInt limitStr with
        | some p => if p > 0 then some p.toNat else none
        | none => none
    else none
  ⟨seed, maxGames⟩

/-- The persisted session record: seed token, play counter (`gameCounter`),
navigation counter (`navcount`), correct counter, optional game limit
(`maxGames`, `none` = unlimited) and optional game mode. -/
structure Session where
  seed : String
  gameCounter : Nat
  navCount : Nat
  correctCounter : Nat
  maxGames : Option Nat
  gameMode : Option String
deriving DecidableEq

def emptySession : Session := ⟨"", 0, 0, 0, none, none⟩

/-- `setSeed(seed, limit, mode)` for a string token. JS distinguishes a
missing argument (`undefined`) from an explicit `null`, so the overrides are
doubly optional: `none` = not supplied, `some none` = explicit `null`,
`some (some x)` = explicit value. The limit branch `limit === undefined ||
limit === null` treats both the same; the mode branch `mode !== undefined`
does not. Counters (including the persisted navcount) reset to 0. -/
def setSeed (s : Session) (token : String) (limit : Option (Option Nat))
    (mode : Option (Option String)) : Session :=
  let parsed := parseSeedWithLimit token
  let gameLimit : Option Nat :=
    match limit with
    | some (some k) => some k
    | _ => parsed.maxGames
  { seed := parsed.seed
    gameCounter := 0
    navCount := 0
    correctCounter := 0
    maxGames := gameLimit
    gameMode :=
      match mode with
      | none => s.gameMode
      | some m => m }

/-- `isGameLimitReached()`: false when unlimited, else `gameCounter >=
maxGames`. -/
def isGameLimitReached (s : Session) : Bool :=
  match s.maxGames with
  | none => false
  | some m => m ≤ s.gameCounter

/-- `incrementGameCounter()`: bumps the play counter and the persisted
navigation counter together. -/
def incrementGameCounter (s : Session) : Session :=
  { s with gameCounter := s.gameCounter + 1, navCount := s.navCount + 1 }

/-- `incrementCorrectCounter()`. -/
def incrementCorrectCounter (s : Session) : Session :=
  { s with correctCounter := s.correctCounter + 1 }

/-- `decrementGameCounter()`: floor at 0; the navigation counter is
deliberately left untouched. -/
def decrementGameCounter (s : Session) : Session :=
  if s.gameCounter = 0 then s else { s with gameCounter := s.gameCounter - 1 }

/-- `resetGameCounter()`. -/
def resetGameCounter (s : Session) : Session :=
  { s with gameCounter := 0, correctCounter := 0 }

/-- `setMaxGames(limit)`: overwrites the limit without touching counters. -/
def setMaxGames (s : Session) (limit : Option Nat) : Session :=
  { s with maxGames := limit }

/-- `setGameMode(mode)`. -/
def setGameMode (s : Session) (mode : Option String) : Session :=
  { s with gameMode := mode }

/-- Outcome of `navigateToRandomApp`: the (possibly updated) session record
and whether the user-visible `alert` fired. -/
structure AdvanceResult where
  session : Session
  alerted : Bool
deriving DecidableEq

/-- `navigateToRandomApp(mode)`, projected onto the session record: refuse
with an alert when the limit is reached, otherwise increment the play and
navigation counters before navigating. -/
def navigateToRandomApp (s : Session) : AdvanceResult :=
  if isGameLimitReached s then ⟨s, true⟩
  else ⟨incrementGameCounter s, false⟩

/-- The session-mutating operations of the lifecycle controller. -/
inductive Op where
  | advance
  | voidGame
  | markCorrect
  | resetCounters
  | newSeed (token : String) (limit : Option (Option Nat)) (mode : Option (Option String))
  | limitChange (limit : Option Nat)
  | modeChange (mode : Option String)
deriving DecidableEq

def applyOp (s : Session) : Op → Session
  | .advance => (navigateToRandomApp s).session
  | .voidGame => decrementGameCounter s
  | .markCorrect => incrementCorrectCounter s
  | .resetCounters => resetGameCounter s
  | .newSeed t l m => setSeed s t l m
  | .limitChange l => setMaxGames s l
  | .modeChange m => setGameMode s m

def runOps (s : Session) (ops : List Op) : Session := ops.foldl applyOp s

def Op.isLimitChange : Op → Bool
  | .limitChange _ => true
  | _ => false

/-! ### Generator lemmas -/

theorem next_fst (s : Nat) : (SeededRNG.next s).1 = s + MULBERRY_INC := rfl

theorem stateAfter_add (s a b : Nat) :
    stateAfter s (a + b) = stateAfter (stateAfter s a) b := by
  induction b with
  | zero => rfl
  | succ b ih => rw [Nat.add_succ]; simp [stateAfter, ih]

theorem stateAfter_closed (s k : Nat) : stateAfter s k = s + k * MULBERRY_INC := by
  induction k with
  | zero => simp [stateAfter]
  | succ k ih => simp [stateAfter, next_fst, ih]; ring

theorem restore_closed (seed n : Nat) :
    restoreRNGState seed n = SeededRNG.ofSeed seed + n * 10 * MULBERRY_INC := by
  unfold restoreRNGState
  rw [stateAfter_closed]

theorem xorShift_lt {a n k : Nat} (h : a < 2 ^ n) : a ^^^ (a >>> k) < 2 ^ n :=
  Nat.xor_lt_two_pow h
    (lt_of_le_of_lt (by rw [Nat.shiftRight_eq_div_pow]; exact Nat.div_le_self _ _) h)

theorem next_snd_lt (s : Nat) : (SeededRNG.next s).2 < M32 := by
  have h32 : M32 = 2 ^ 32 := by norm_num [M32]
  simp only [SeededRNG.next]
  rw [h32]
  apply xorShift_lt
  apply Nat.xor_lt_two_pow
  · exact Nat.mod_lt _ (by norm_num)
  · exact Nat.mod_lt _ (by norm_num)

theorem randInt_ge (s : Nat) {lo hi : Int} (h : lo ≤ hi) :
    lo ≤ (SeededRNG.randInt s lo hi).1 := by
  simp only [SeededRNG.randInt]
  have h0 : (0 : Int) ≤ Int.fdiv (((SeededRNG.next s).2 : Int) * (hi - lo + 1)) (M32 : Int) :=
    Int.fdiv_nonneg (mul_nonneg (Int.ofNat_nonneg _) (by omega)) (by norm_num [M32])
  omega

theorem randInt_le (s : Nat) {lo hi : Int} (h : lo ≤ hi) :
    (SeededRNG.randInt s lo hi).1 ≤ hi := by
  have hn := next_snd_lt s
  simp only [SeededRNG.randInt]
  have hM : (0 : Int) < (M32 : Int) := by norm_num [M32]
  have h1 : Int.fdiv (((SeededRNG.next s).2 : Int) * (hi - lo + 1)) (M32 : Int) < hi - lo + 1 := by
    rw [Int.fdiv_eq_ediv _ (le_of_lt hM), Int.ediv_lt_iff_lt_mul hM]
    have hcast : ((SeededRNG.next s).2 : Int) < (M32 : Int) := by exact_mod_cast hn
    calc ((SeededRNG.next s).2 : Int) * (hi - lo + 1)
        < (M32 : Int) * (hi - lo + 1) := by
          exact mul_lt_mul_of_pos_right hcast (by omega)
      _ = (hi - lo + 1) * (M32 : Int) := by ring
  omega

/-! ### Guess-set lemmas -/

theorem nodupAppendSingle {l : List Int} {x : Int} (hl : l.Nodup) (hx : x ∉ l) :
    (l ++ [x]).Nodup := by
  simp [List.nodup_append, hl, hx]

theorem forall_append_single {l : List Int} {x : Int} {P : Int → Prop}
    (hl : ∀ y ∈ l, P y) (hx : P x) : ∀ y ∈ l ++ [x], P y := by
  intro y hy
  rcases List.mem_append.mp hy with h | h
  · exact hl y h
  · simp at h; subst h; exact hx

theorem mem_setAdd {l : List Int} {a x : Int} (h : a ∈ l) : a ∈ setAdd l x := by
  unfold setAdd
  split
  · exact h
  · exact List.mem_append_left _ h

theorem setAdd_nodup {l : List Int} {x : Int} (hl : l.Nodup) : (setAdd l x).Nodup := by
  unfold setAdd
  by_cases hx : x ∈ l
  · rwa [if_pos hx]
  · rw [if_neg hx]
    exact nodupAppendSingle hl hx

theorem setAdd_forall {l : List Int} {x : Int} {P : Int → Prop}
    (hl : ∀ y ∈ l, P y) (hx : P x) : ∀ y ∈ setAdd l x, P y := by
  unfold setAdd
  by_cases hmem : x ∈ l
  · rwa [if_pos hmem]
  · rw [if_neg hmem]
    exact forall_append_single hl hx

theorem clampLow_nonneg (x : Int) : 0 ≤ clampLow x := by
  unfold clampLow; split_ifs <;> omega

theorem clampBelow_lt {x current : Int} (h : 0 < current) :
    0 ≤ clampBelow (clampLow x) current ∧ clampBelow (clampLow x) current < current := by
  have := clampLow_nonneg x
  unfold clampBelow
  split_ifs <;> omega

theorem stepFloor_ge (x lo : Int) : lo ≤ stepFloor x lo := by
  unfold stepFloor; split_ifs <;> omega

theorem stepFloor_nonneg {x lo : Int} (hx : 0 ≤ x) (hlo : 0 ≤ lo) :
    0 ≤ stepFloor x lo := by
  unfold stepFloor; split_ifs <;> omega

theorem capHigh_le (x : Int) : capHigh x ≤ CAP := by
  unfold capHigh; split_ifs <;> omega

theorem capHigh_nonneg {x : Int} (hx : 0 ≤ x) : 0 ≤ capHigh x := by
  unfold capHigh
  split_ifs
  · norm_num [CAP]
  · exact hx

theorem foldl_max_acc_le (t : List Int) (acc : Int) : acc ≤ t.foldl max acc := by
  induction t generalizing acc with
  | nil => simp
  | cons h t ih =>
    simp only [List.foldl]
    exact le_trans (le_max_left acc h) (ih (max acc h))

theorem foldl_max_mem (t : List Int) (acc : Int) :
    t.foldl max acc = acc ∨ t.foldl max acc ∈ t := by
  induction t generalizing acc with
  | nil => left; rfl
  | cons h t ih =>
    simp only [List.foldl]
    rcases ih (max acc h) with heq | hmem
    · rcases max_choice acc h with hc | hc
      · left; rw [heq, hc]
      · right; rw [heq, hc]; exact List.mem_cons_self _ _
    · right; exact List.mem_cons_of_mem _ hmem

theorem le_foldl_max (t : List Int) (acc : Int) : ∀ y ∈ t, y ≤ t.foldl max acc := by
  induction t generalizing acc with
  | nil => intro y hy; simp at hy
  | cons h t ih =>
    intro y hy
    simp only [List.foldl]
    rcases List.mem_cons.mp hy with rfl | hmem
    · exact le_trans (le_max_right acc y) (foldl_max_acc_le t _)
    · exact ih _ y hmem

theorem listMax_mem {l : List Int} (h : l ≠ []) : listMax l ∈ l := by
  cases l with
  | nil => exact absurd rfl h
  | cons a t =>
    simp only [listMax]
    rcases foldl_max_mem t a with heq | hmem
    · rw [heq]; exact List.mem_cons_self _ _
    · exact List.mem_cons_of_mem _ hmem

theorem le_listMax {l : List Int} : ∀ y ∈ l, y ≤ listMax l := by
  cases l with
  | nil => intro y hy; simp at hy
  | cons a t =>
    intro y hy
    simp only [listMax]
    rcases List.mem_cons.mp hy with rfl | hmem
    · exact foldl_max_acc_le t y
    · exact le_foldl_max t a y hmem

theorem foldl_min_mem (t : List Int) (acc : Int) :
    t.foldl min acc = acc ∨ t.foldl min acc ∈ t := by
  induction t generalizing acc with
  | nil => left; rfl
  | cons h t ih =>
    simp only [List.foldl]
    rcases ih (min acc h) with heq | hmem
    · rcases min_choice acc h with hc | hc
      · left; rw [heq, hc]
      · right; rw [heq, hc]; exact List.mem_cons_self _ _
    · right; exact List.mem_cons_of_mem _ hmem

theorem listMin_mem {l : List Int} (h : l ≠ []) : listMin l ∈ l := by
  cases l with
  | nil => exact absurd rfl h
  | cons a t =>
    simp only [listMin]
    rcases foldl_min_mem t a with heq | hmem
    · rw [heq]; exact List.mem_cons_self _ _
    · exact List.mem_cons_of_mem _ hmem

theorem downGo_inv (fuel : Nat) :
    ∀ (l : List Int) (rng : Nat) (cur dc md : Int),
      l.Nodup → (∀ y ∈ l, 0 ≤ y ∧ y ≤ CAP) → 0 ≤ cur → cur ≤ CAP →
      ((downGo fuel l rng cur dc md).1.Nodup ∧
        (∀ y ∈ (downGo fuel l rng cur dc md).1, 0 ≤ y ∧ y ≤ CAP) ∧
        ∀ a ∈ l, a ∈ (downGo fuel l rng cur dc md).1) := by
  induction fuel with
  | zero =>
    intro l rng cur dc md hnd hb _ _
    exact ⟨hnd, hb, fun a ha => ha⟩
  | succ fuel ih =>
    intro l rng cur dc md hnd hb hc0 hcC
    simp only [downGo]
    by_cases h1 : l.length < MIN_ANSWERS ∧ dc < md
    · rw [if_pos h1]
      by_cases h2 : cur = 0
      · rw [if_pos h2]; exact ⟨hnd, hb, fun a ha => ha⟩
      · rw [if_neg h2]
        by_cases h3 : Int.fdiv cur 5 = cur
        · rw [if_pos h3]; exact ⟨hnd, hb, fun a ha => ha⟩
        · rw [if_neg h3]
          have hcurpos : 0 < cur := lt_of_le_of_ne hc0 (Ne.symm h2)
          obtain ⟨hn0, hnlt⟩ :=
            clampBelow_lt (x := Int.fdiv cur 5 + (SeededRNG.randInt rng (-3) 3).1) hcurpos
          have hnC : clampBelow (clampLow (Int.fdiv cur 5 + (SeededRNG.randInt rng (-3) 3).1)) cur
              ≤ CAP := by omega
          by_cases h4 : clampBelow (clampLow (Int.fdiv cur 5 + (SeededRNG.randInt rng (-3) 3).1)) cur < 50
          · rw [if_pos h4]
            exact ⟨setAdd_nodup hnd, setAdd_forall hb ⟨hn0, hnC⟩,
              fun a ha => mem_setAdd ha⟩
          · rw [if_neg h4]
            obtain ⟨g1, g2, g3⟩ := ih _ _ _ _ _
              (setAdd_nodup hnd) (setAdd_forall hb ⟨hn0, hnC⟩) hn0 hnC
            exact ⟨g1, g2, fun a ha => g3 a (mem_setAdd ha)⟩
    · rw [if_neg h1]; exact ⟨hnd, hb, fun a ha => ha⟩

theorem probeUp_ge {l : List Int} (t : Nat) : ∀ {c : Int}, c ≤ probeUp l t c := by
  induction t with
  | zero => intro c; simp [probeUp]
  | succ t ih =>
    intro c
    unfold probeUp
    split_ifs with hc
    · exact le_trans (by omega) ih
    · exact le_refl _

theorem probeUp_le {l : List Int} (t : Nat) : ∀ {c : Int}, c ≤ CAP → probeUp l t c ≤ CAP := by
  induction t with
  | zero => intro c h; simpa [probeUp] using h
  | succ t ih =>
    intro c h
    unfold probeUp
    split_ifs with hc
    · obtain ⟨_, hlt⟩ := hc
      exact ih (by omega)
    · exact h

theorem upGo_inv (fuel : Nat) :
    ∀ (l : List Int) (rng : Nat) (cur minStep : Int),
      l.Nodup → (∀ y ∈ l, 0 ≤ y ∧ y ≤ CAP) → 0 ≤ cur → 0 ≤ minStep →
      ((upGo fuel l rng cur minStep).1.Nodup ∧
        (∀ y ∈ (upGo fuel l rng cur minStep).1, 0 ≤ y ∧ y ≤ CAP) ∧
        ∀ a ∈ l, a ∈ (upGo fuel l rng cur minStep).1) := by
  induction fuel with
  | zero =>
    intro l rng cur minStep hnd hb _ _
    exact ⟨hnd, hb, fun a ha => ha⟩
  | succ fuel ih =>
    intro l rng cur minStep hnd hb hc hm
    simp only [upGo]
    by_cases hlen : l.length < MIN_ANSWERS
    · rw [if_pos hlen]
      have hc30 : 0 ≤ capHigh (stepFloor (clampLow (cur * 5 + (SeededRNG.randInt rng (-2) 3).1))
          (cur + minStep)) :=
        capHigh_nonneg (stepFloor_nonneg (clampLow_nonneg _) (by omega))
      have hc3C : capHigh (stepFloor (clampLow (cur * 5 + (SeededRNG.randInt rng (-2) 3).1))
          (cur + minStep)) ≤ CAP := capHigh_le _
      have hc40 : 0 ≤ probeUp l 10 (capHigh (stepFloor
          (clampLow (cur * 5 + (SeededRNG.randInt rng (-2) 3).1)) (cur + minStep))) :=
        le_trans hc30 (probeUp_ge 10)
      have hc4C : probeUp l 10 (capHigh (stepFloor
          (clampLow (cur * 5 + (SeededRNG.randInt rng (-2) 3).1)) (cur + minStep))) ≤ CAP :=
        probeUp_le 10 hc3C
      by_cases hcol : probeUp l 10 (capHigh (stepFloor
          (clampLow (cur * 5 + (SeededRNG.randInt rng (-2) 3).1)) (cur + minStep))) ∈ l
      · rw [if_pos hcol]; exact ⟨hnd, hb, fun a ha => ha⟩
      · rw [if_neg hcol]
        obtain ⟨g1, g2, g3⟩ := ih _ _ _ _
          (nodupAppendSingle hnd hcol) (forall_append_single hb ⟨hc40, hc4C⟩) hc40 hm
        exact ⟨g1, g2, fun a ha => g3 a (List.mem_append_left _ ha)⟩
    · rw [if_neg hlen]; exact ⟨hnd, hb, fun a ha => ha⟩

theorem fallbackGo_inv (fuel : Nat) :
    ∀ (l : List Int) (mv : Int),
      l.Nodup → (∀ y ∈ l, 0 ≤ y ∧ y ≤ CAP) → (∀ y ∈ l, y ≤ mv) → mv ∈ l → mv ≤ CAP →
      MIN_ANSWERS ≤ l.length + fuel →
      ((fallbackGo fuel l mv).Nodup ∧
        (∀ y ∈ fallbackGo fuel l mv, 0 ≤ y ∧ y ≤ CAP) ∧
        (∀ a ∈ l, a ∈ fallbackGo fuel l mv) ∧
        (MIN_ANSWERS ≤ (fallbackGo fuel l mv).length ∨ (CAP : Int) ∈ fallbackGo fuel l mv)) := by
  induction fuel with
  | zero =>
    intro l mv hnd hb hle hmem hcap hfuel
    exact ⟨hnd, hb, fun a ha => ha, Or.inl (by simpa using hfuel)⟩
  | succ fuel ih =>
    intro l mv hnd hb hle hmem hcap hfuel
    simp only [fallbackGo]
    by_cases hc : l.length < MIN_ANSWERS ∧ mv < CAP
    · rw [if_pos hc]
      have hnot : mv + 1 ∉ l := fun hin => by have := hle _ hin; omega
      have hsets : setAdd l (mv + 1) = l ++ [mv + 1] := by simp [setAdd, hnot]
      have h0 : (0 : Int) ≤ mv + 1 := by have := (hb mv hmem).1; omega
      have h1 : mv + 1 ≤ CAP := by omega
      obtain ⟨g1, g2, g3, g4⟩ := ih (setAdd l (mv + 1)) (mv + 1)
        (setAdd_nodup hnd)
        (setAdd_forall hb ⟨h0, h1⟩)
        (by rw [hsets]
            exact forall_append_single (fun y hy => le_trans (hle y hy) (by omega)) (le_refl _))
        (by rw [hsets]; simp)
        h1
        (by rw [hsets]; simp only [List.length_append, List.length_singleton]; omega)
      exact ⟨g1, g2, fun a ha => g3 a (mem_setAdd ha), g4⟩
    · rw [if_neg hc]
      refine ⟨hnd, hb, fun a ha => ha, ?_⟩
      rcases Nat.lt_or_ge l.length MIN_ANSWERS with hlt | hge
      · right
        have hnlt : ¬ mv < CAP := fun hx => hc ⟨hlt, hx⟩
        have heq : mv = CAP := le_antisymm hcap (by omega)
        rwa [← heq]
      · left; exact hge

theorem perturbReplace_inv (l : List Int) (m : Int) :
    ∀ (cands : List Int),
      l.Nodup → (∀ y ∈ l, 0 ≤ y ∧ y ≤ CAP) → (∀ v ∈ cands, 0 ≤ v ∧ v ≤ CAP) →
      m ∈ l →
      ((perturbReplace l m cands).Nodup ∧
        (∀ y ∈ perturbReplace l m cands, 0 ≤ y ∧ y ≤ CAP) ∧
        (∀ a ∈ l, a ≠ m → a ∈ perturbReplace l m cands) ∧
        (perturbReplace l m cands).length = l.length) := by
  intro cands
  induction cands with
  | nil => intro hnd hb _ _; exact ⟨hnd, hb, fun a ha _ => ha, rfl⟩
  | cons v rest ih =>
    intro hnd hb hcb hm
    simp only [perturbReplace]
    by_cases h1 : v = m
    · rw [if_pos h1]; exact ⟨hnd, hb, fun a ha _ => ha, rfl⟩
    · rw [if_neg h1]
      by_cases h2 : v ∈ l
      · rw [if_pos h2]
        exact ih hnd hb (fun x hx => hcb x (List.mem_cons_of_mem _ hx)) hm
      · rw [if_neg h2]
        refine ⟨?_, ?_, ?_, ?_⟩
        · exact nodupAppendSingle (hnd.erase m) (fun hin => h2 (List.erase_subset _ _ hin))
        · exact forall_append_single (fun y hy => hb y (List.erase_subset _ _ hy))
            (hcb v (List.mem_cons_self _ _))
        · intro a ha hne
          exact List.mem_append_left _ ((List.mem_erase_of_ne hne).mpr ha)
        · have hpos : 0 < l.length := List.length_pos.mpr (List.ne_nil_of_mem hm)
          rw [List.length_append, List.length_erase_of_mem hm]
          simp only [List.length_singleton]
          omega

theorem perturbPhase_inv (TC : Int) (l : List Int) (rng : Nat)
    (hnd : l.Nodup) (hb : ∀ y ∈ l, 0 ≤ y ∧ y ≤ CAP) :
    ((perturbPhase TC l rng).1.Nodup ∧
      (∀ y ∈ (perturbPhase TC l rng).1, 0 ≤ y ∧ y ≤ CAP) ∧
      (TC ∈ l → TC ∈ (perturbPhase TC l rng).1) ∧
      ((CAP : Int) ∈ l → (CAP : Int) ∈ (perturbPhase TC l rng).1) ∧
      (perturbPhase TC l rng).1.length = l.length) := by
  simp only [perturbPhase]
  by_cases hlen : l.length > 0
  · rw [if_pos hlen]
    by_cases hmt : listMin l ≠ TC
    · rw [if_pos hmt]
      by_cases hflip : (SeededRNG.next rng).2 < HALF ∧ listMin l < 20
      · rw [if_pos hflip]
        have hne : l ≠ [] := by
          intro h; subst h; simp at hlen
        have hmem : listMin l ∈ l := listMin_mem hne
        have hcb : ∀ v ∈ (if (SeededRNG.next (SeededRNG.next rng).1).2 < HALF
            then [(0 : Int), 1] else [1, 0]), 0 ≤ v ∧ v ≤ CAP := by
          split_ifs <;>
            · intro v hv
              simp at hv
              rcases hv with rfl | rfl <;> constructor <;> norm_num [CAP]
        obtain ⟨g1, g2, g3, g4⟩ := perturbReplace_inv l (listMin l) _ hnd hb hcb hmem
        refine ⟨g1, g2, ?_, ?_, g4⟩
        · intro hTC
          exact g3 TC hTC (fun h => hmt h.symm)
        · intro hCAP
          have h20 := hflip.2
          refine g3 CAP hCAP ?_
          simp only [CAP] at *
          omega
      · rw [if_neg hflip]
        exact ⟨hnd, hb, fun h => h, fun h => h, rfl⟩
    · rw [if_neg hmt]
      exact ⟨hnd, hb, fun h => h, fun h => h, rfl⟩
  · rw [if_neg hlen]
    exact ⟨hnd, hb, fun h => h, fun h => h, rfl⟩

theorem swapAt_length (l : List Int) (i j : Nat) : (swapAt l i j).length = l.length := by
  simp [swapAt]

theorem extract_perm (x : Int) : ∀ (xs : List Int) (i : Nat), i < xs.length →
    List.Perm (xs.getD i 0 :: xs.set i x) (x :: xs) := by
  intro xs
  induction xs with
  | nil => intro i h; simp at h
  | cons y ys ih =>
    intro i h
    cases i with
    | zero =>
      simp only [List.getD_cons_zero, List.set_cons_zero]
      exact List.Perm.swap _ _ _
    | succ i =>
      simp only [List.getD_cons_succ, List.set_cons_succ]
      have hlen : i < ys.length := by simpa using h
      refine List.Perm.trans (List.Perm.swap _ _ _) ?_
      refine List.Perm.trans (List.Perm.cons _ (ih i hlen)) ?_
      exact List.Perm.swap _ _ _

theorem swapAt_perm : ∀ (l : List Int) (i j : Nat), j ≤ i → i < l.length →
    List.Perm (swapAt l i j) l := by
  intro l
  induction l with
  | nil => intro i j _ hi; simp at hi
  | cons y ys ih =>
    intro i j hj hi
    cases i with
    | zero =>
      have hj0 : j = 0 := Nat.le_zero.mp hj
      subst hj0
      simp [swapAt]
    | succ i =>
      cases j with
      | zero =>
        unfold swapAt
        simp only [List.getD_cons_succ, List.getD_cons_zero, List.set_cons_succ,
          List.set_cons_zero]
        exact extract_perm y ys i (by simpa using hi)
      | succ j =>
        unfold swapAt
        simp only [List.getD_cons_succ, List.set_cons_succ]
        exact List.Perm.cons _ (ih i j (Nat.succ_le_succ_iff.mp hj) (by simpa using hi))

theorem shuffleGo_perm : ∀ (i : Nat) (l : List Int) (rng : Nat), i < l.length →
    List.Perm (shuffleGo i l rng).1 l := by
  intro i
  induction i with
  | zero => intro l rng _; simp [shuffleGo]
  | succ i ih =>
    intro l rng h
    simp only [shuffleGo]
    have hn := next_snd_lt rng
    have hj : (SeededRNG.next rng).2 * (i + 2) / M32 ≤ i + 1 := by
      have hlt : (SeededRNG.next rng).2 * (i + 2) < (i + 2) * M32 := by
        calc (SeededRNG.next rng).2 * (i + 2) < M32 * (i + 2) :=
              Nat.mul_lt_mul_of_lt_of_le hn (le_refl _) (by omega)
          _ = (i + 2) * M32 := Nat.mul_comm _ _
      have := (Nat.div_lt_iff_lt_mul (by norm_num [M32] : 0 < M32)).mpr hlt
      omega
    have hswap := swapAt_perm l (i + 1) _ hj h
    have hlen : i < (swapAt l (i + 1) ((SeededRNG.next rng).2 * (i + 2) / M32)).length := by
      rw [swapAt_length]; omega
    exact (ih _ _ hlen).trans hswap

theorem shuffle_perm (l : List Int) (rng : Nat) : List.Perm (shuffle l rng).1 l := by
  unfold shuffle
  cases l with
  | nil => simp [shuffleGo]
  | cons a t =>
    apply shuffleGo_perm
    simp

/-! ### Claim theorems: generator determinism and misuse -/

/-- Claim C2: for any fixed 32-bit seed integer, independently constructed
generators produce identical draw sequences, and a generator reconstructed
from the same seed and fast-forwarded by `navigationCount * 10` discarded
draws reaches exactly the state the original sequence had at that position,
so its subsequent outputs coincide with the original sequence. -/
theorem C2_rng_determinism :
    (∀ seed seed' : Nat, seed % M32 = seed' % M32 →
        ∀ k, drawAt (SeededRNG.ofSeed seed) k = drawAt (SeededRNG.ofSeed seed') k) ∧
    (∀ seed navCount : Nat,
        restoreRNGState seed navCount = stateAfter (SeededRNG.ofSeed seed) (navCount * 10) ∧
        ∀ k, drawAt (restoreRNGState seed navCount) k =
          drawAt (SeededRNG.ofSeed seed) (navCount * 10 + k)) := by
  constructor
  · intro seed seed' h k
    unfold SeededRNG.ofSeed
    rw [h]
  · intro seed navCount
    refine ⟨rfl, fun k => ?_⟩
    unfold drawAt restoreRNGState
    rw [stateAfter_add]

theorem C2_rng_determinism_witness :
    1 % M32 = 4294967297 % M32 ∧
      drawAt (SeededRNG.ofSeed 1) 0 = drawAt (SeededRNG.ofSeed 4294967297) 0 :=
  ⟨by decide, C2_rng_determinism.1 1 4294967297 (by decide) 0⟩

/-- Claim C6, counterexample: `randInt(5, 2)` (with `max < min`) does not
raise anything  -  from state 0 it silently returns the value 4, computed
from the negative range. -/
theorem C6_counterexample : (SeededRNG.randInt 0 5 2).1 = 4 := by decide

/-- Claim C6, amended: `randInt` performs no argument check; with
`max < min` it silently returns `min + floor(draw * (max - min + 1))`, a
value in the inverted interval `(max, min]`, instead of raising an error. -/
theorem C6_randInt_silent (s : Nat) (min max : Int) (h : max < min) :
    max < (SeededRNG.randInt s min max).1 ∧ (SeededRNG.randInt s min max).1 ≤ min := by
  have hn := next_snd_lt s
  simp only [SeededRNG.randInt]
  have hM : (0 : Int) < (M32 : Int) := by norm_num [M32]
  have hfe : Int.fdiv (((SeededRNG.next s).2 : Int) * (max - min + 1)) (M32 : Int)
      = ((SeededRNG.next s).2 : Int) * (max - min + 1) / (M32 : Int) :=
    Int.fdiv_eq_ediv _ (le_of_lt hM)
  have hr : (max - min + 1 : Int) ≤ 0 := by omega
  have hnle : ((SeededRNG.next s).2 : Int) ≤ (M32 : Int) := by
    exact_mod_cast le_of_lt hn
  have hlow : (max - min + 1 : Int) ≤
      ((SeededRNG.next s).2 : Int) * (max - min + 1) / (M32 : Int) := by
    rw [Int.le_ediv_iff_mul_le hM]
    have hmul : (M32 : Int) * (max - min + 1) ≤
        ((SeededRNG.next s).2 : Int) * (max - min + 1) :=
      mul_le_mul_of_nonpos_right hnle hr
    linarith [hmul]
  have hhigh : ((SeededRNG.next s).2 : Int) * (max - min + 1) / (M32 : Int) < 1 := by
    rw [Int.ediv_lt_iff_lt_mul hM]
    have hnum : ((SeededRNG.next s).2 : Int) * (max - min + 1) ≤ 0 :=
      mul_nonpos_of_nonneg_of_nonpos (Int.ofNat_nonneg _) hr
    linarith [hM]
  rw [hfe]
  omega

theorem C6_randInt_silent_witness :
    (2 : Int) < 5 ∧
      ((2 : Int) < (SeededRNG.randInt 0 5 2).1 ∧ (SeededRNG.randInt 0 5 2).1 ≤ 5) :=
  ⟨by decide, C6_randInt_silent 0 5 2 (by decide)⟩

/-! ### Claim theorems: session lifecycle -/

/-- Claim C3: once a finite limit is set and the play counter has reached
it, `navigateToRandomApp` refuses: the session record (play, navigation and
correct counters included) is returned unchanged and the user-visible alert
fires, rather than a silent no-op. -/
theorem C3_limit_enforcement (s : Session) (m : Nat)
    (hm : s.maxGames = some m) (hge : m ≤ s.gameCounter) :
    navigateToRandomApp s = ⟨s, true⟩ := by
  have h : isGameLimitReached s = true := by
    unfold isGameLimitReached
    rw [hm]
    exact decide_eq_true hge
  simp [navigateToRandomApp, h]

theorem C3_limit_enforcement_witness :
    (⟨"A", 3, 7, 2, some 3, none⟩ : Session).maxGames = some 3 ∧
      3 ≤ (⟨"A", 3, 7, 2, some 3, none⟩ : Session).gameCounter ∧
      navigateToRandomApp ⟨"A", 3, 7, 2, some 3, none⟩ = ⟨⟨"A", 3, 7, 2, some 3, none⟩, true⟩ :=
  ⟨rfl, by decide, C3_limit_enforcement _ 3 rfl (by decide)⟩

/-- Claim C4: starting from any state from which a single Advance succeeds,
Advance / void-and-retry / Advance leaves the persisted navigation counter
two higher (versus one higher for the single Advance), so the generator
state restored by fast-forwarding differs: voided attempts still consume
entropy. -/
theorem C4_void_retry_entropy (s : Session) (seedNum : Nat)
    (h : isGameLimitReached s = false) :
    (navigateToRandomApp (decrementGameCounter (navigateToRandomApp s).session)).session.navCount
        = s.navCount + 2 ∧
    (navigateToRandomApp s).session.navCount = s.navCount + 1 ∧
    restoreRNGState seedNum
        (navigateToRandomApp (decrementGameCounter (navigateToRandomApp s).session)).session.navCount
      ≠ restoreRNGState seedNum (navigateToRandomApp s).session.navCount := by
  have h1 : navigateToRandomApp s = ⟨incrementGameCounter s, false⟩ := by
    simp [navigateToRandomApp, h]
  have hnav1 : (navigateToRandomApp s).session = incrementGameCounter s := by rw [h1]
  have h2 : decrementGameCounter (incrementGameCounter s) =
      { s with navCount := s.navCount + 1 } := by
    simp [decrementGameCounter, incrementGameCounter]
  have h3 : isGameLimitReached { s with navCount := s.navCount + 1 } = false := by
    unfold isGameLimitReached at h ⊢
    cases hm : s.maxGames with
    | none => simp
    | some m => rw [hm] at h; simpa using h
  have h4 : navigateToRandomApp { s with navCount := s.navCount + 1 } =
      ⟨incrementGameCounter { s with navCount := s.navCount + 1 }, false⟩ := by
    simp [navigateToRandomApp, h3]
  have hfin : (navigateToRandomApp (decrementGameCounter (navigateToRandomApp s).session)).session
      = incrementGameCounter { s with navCount := s.navCount + 1 } := by
    rw [hnav1, h2, h4]
  refine ⟨?_, ?_, ?_⟩
  · rw [hfin]; simp [incrementGameCounter]
  · rw [hnav1]; simp [incrementGameCounter]
  · rw [hfin, hnav1]
    simp only [incrementGameCounter]
    rw [restore_closed, restore_closed]
    simp only [MULBERRY_INC]
    omega

theorem C4_void_retry_entropy_witness :
    isGameLimitReached emptySession = false ∧
    ((navigateToRandomApp
          (decrementGameCounter (navigateToRandomApp emptySession).session)).session.navCount
        = emptySession.navCount + 2 ∧
      (navigateToRandomApp emptySession).session.navCount = emptySession.navCount + 1 ∧
      restoreRNGState 7
          (navigateToRandomApp
            (decrementGameCounter (navigateToRandomApp emptySession).session)).session.navCount
        ≠ restoreRNGState 7 (navigateToRandomApp emptySession).session.navCount) :=
  ⟨by decide, C4_void_retry_entropy emptySession 7 (by decide)⟩

/-- Claim C5, counterexample: an explicitly supplied `null` limit override
does not take precedence  -  `setSeed("ABC:10", null)` stores the limit 10
embedded in the token, not the unlimited override. -/
theorem C5_counterexample :
    (setSeed emptySession "ABC:10" (some none) none).maxGames = some 10 := by decide

/-- Claim C5, amended: a supplied non-null `limitOverride` takes precedence
over the token, and a supplied `modeOverride` (null included) always takes
precedence; but a supplied `null` limit is treated like an absent argument
and defers to the limit embedded in the token. -/
theorem C5_override_precedence :
    (∀ (s : Session) (token : String) (k : Nat) (mode : Option (Option String)),
        (setSeed s token (some (some k)) mode).maxGames = some k) ∧
    (∀ (s : Session) (token : String) (lim : Option (Option Nat)) (m : Option String),
        (setSeed s token lim (some m)).gameMode = m) ∧
    (∀ (s : Session) (token : String) (mode : Option (Option String)),
        (setSeed s token (some none) mode).maxGames = (parseSeedWithLimit token).maxGames) :=
  ⟨fun _ _ _ _ => rfl, fun _ _ _ _ => rfl, fun _ _ _ => rfl⟩

/-- Claim C7, counterexample: the state reached from a fresh seed by five
unlimited Advances followed by `setMaxGames(3)` has `playCount = 5 > 3 =
gameLimit`, so the claimed invariant is not preserved by every mutator. -/
theorem C7_counterexample :
    (runOps emptySession [Op.newSeed "A" none none, Op.advance, Op.advance, Op.advance,
        Op.advance, Op.advance, Op.limitChange (some 3)]).maxGames = some 3 ∧
    ¬ (runOps emptySession [Op.newSeed "A" none none, Op.advance, Op.advance, Op.advance,
        Op.advance, Op.advance, Op.limitChange (some 3)]).gameCounter ≤ 3 := by decide

/-- Claim C7, amended: `playCount ≤ gameLimit` is preserved by every
session mutator except `setMaxGames`: Advance checks the limit before
incrementing, voiding only decrements, and `setSeed` resets the counter to
0; only `setMaxGames` can lower the limit below an existing play count. -/
theorem C7_limit_invariant_amended (s : Session) (op : Op) (m : Nat)
    (hop : op.isLimitChange = false)
    (hinv : ∀ m', s.maxGames = some m' → s.gameCounter ≤ m')
    (hm : (applyOp s op).maxGames = some m) :
    (applyOp s op).gameCounter ≤ m := by
  cases op with
  | advance =>
    cases hb : isGameLimitReached s with
    | true =>
      have hid : applyOp s Op.advance = s := by
        simp [applyOp, navigateToRandomApp, hb]
      rw [hid] at hm ⊢
      exact hinv m hm
    | false =>
      have hinc : applyOp s Op.advance = incrementGameCounter s := by
        simp [applyOp, navigateToRandomApp, hb]
      rw [hinc] at hm ⊢
      simp only [incrementGameCounter] at hm ⊢
      unfold isGameLimitReached at hb
      rw [hm] at hb
      simp at hb
      omega
  | voidGame =>
    simp only [applyOp, decrementGameCounter] at hm ⊢
    by_cases h0 : s.gameCounter = 0
    · simp [h0] at hm ⊢
    · simp [h0] at hm ⊢
      have := hinv m hm
      omega
  | markCorrect =>
    simp only [applyOp, incrementCorrectCounter] at hm ⊢
    exact hinv m hm
  | resetCounters =>
    simp only [applyOp, resetGameCounter] at hm ⊢
    omega
  | newSeed t l md =>
    simp only [applyOp, setSeed] at hm ⊢
    omega
  | limitChange l => simp [Op.isLimitChange] at hop
  | modeChange md =>
    simp only [applyOp, setGameMode] at hm ⊢
    exact hinv m hm

theorem C7_limit_invariant_amended_witness :
    Op.isLimitChange Op.advance = false ∧
    (applyOp ⟨"A", 1, 1, 0, some 2, none⟩ Op.advance).maxGames = some 2 ∧
    (applyOp ⟨"A", 1, 1, 0, some 2, none⟩ Op.advance).gameCounter ≤ 2 :=
  ⟨by decide, by decide,
    C7_limit_invariant_amended ⟨"A", 1, 1, 0, some 2, none⟩ Op.advance 2 (by decide)
      (by intro m' hm'; simp at hm'; show 1 ≤ m'; omega) (by decide)⟩

/-- Claim C9: seed round-trip  -  `setSeed("ABC123:10")` stores seed
`"ABC123"` and limit 10; `setSeed("abc123:UNLIMITED")` upper-cases the seed
to `"ABC123"` and stores no limit. -/
theorem C9_seed_roundtrip :
    (setSeed emptySession "ABC123:10" none none).seed = "ABC123" ∧
    (setSeed emptySession "ABC123:10" none none).maxGames = some 10 ∧
    (setSeed emptySession "abc123:UNLIMITED" none none).seed = "ABC123" ∧
    (setSeed emptySession "abc123:UNLIMITED" none none).maxGames = none := by decide

/-- Claim C10: a limit suffix that parses to a non-positive integer (such
as `"ABC:0"` or `"ABC:-5"`) is discarded exactly like a non-numeric one:
the parsed session is unlimited (`maxGames = none`). -/
theorem C10_nonpositive_limit (tok : String) (k : Int)
    (hparse : jsParseInt (jsToUpper (jsTrim ((jsSplit tok ':').getD 1 ""))) = some k)
    (hk : k ≤ 0) :
    (parseSeedWithLimit tok).maxGames = none := by
  simp only [parseSeedWithLimit]
  by_cases hlen : (jsSplit tok ':').length > 1
  · rw [if_pos hlen]
    by_cases hu : jsToUpper (jsTrim ((jsSplit tok ':').getD 1 "")) = "UNLIMITED" ∨
        jsToUpper (jsTrim ((jsSplit tok ':').getD 1 "")) = ""
    · rw [if_pos hu]
    · rw [if_neg hu, hparse]
      show (if k > 0 then some k.toNat else none) = none
      rw [if_neg (by omega : ¬ k > 0)]
  · rw [if_neg hlen]

theorem C10_nonpositive_limit_witness :
    jsParseInt (jsToUpper (jsTrim ((jsSplit "ABC:0" ':').getD 1 ""))) = some 0 ∧
    (0 : Int) ≤ 0 ∧ (parseSeedWithLimit "ABC:0").maxGames = none :=
  ⟨by decide, by decide, C10_nonpositive_limit "ABC:0" 0 (by decide) (by decide)⟩

/-! ### Claim theorems: guess-set synthesis -/

theorem buildGuessSet_inv (t : Int) (rng : Nat) :
    coerceTrue t ∈ buildGuessSet t rng ∧
    (buildGuessSet t rng).Nodup ∧
    (∀ x ∈ buildGuessSet t rng, 0 ≤ x ∧ x ≤ CAP) ∧
    (MIN_ANSWERS ≤ (buildGuessSet t rng).length ∨ (CAP : Int) ∈ buildGuessSet t rng) := by
  have hTC0 : (0 : Int) ≤ coerceTrue t := le_max_left _ _
  have hTCC : coerceTrue t ≤ CAP := by
    unfold coerceTrue
    exact max_le (by norm_num [CAP]) (min_le_left _ _)
  obtain ⟨hAnd, hAb, hATC⟩ :
      ((guessSetAfterDown t rng).1.1.Nodup ∧
        (∀ y ∈ (guessSetAfterDown t rng).1.1, 0 ≤ y ∧ y ≤ CAP) ∧
        coerceTrue t ∈ (guessSetAfterDown t rng).1.1) := by
    simp only [guessSetAfterDown]
    by_cases hcond : coerceTrue t ≥ (SeededRNG.randInt rng 40 60).1
    · rw [if_pos hcond]
      obtain ⟨g1, g2, g3⟩ := downGo_inv 64 [coerceTrue t] _ (coerceTrue t) 0 _
        (List.nodup_singleton _)
        (by intro y hy; rw [List.mem_singleton] at hy; subst hy; exact ⟨hTC0, hTCC⟩)
        hTC0 hTCC
      exact ⟨g1, g2, g3 _ (List.mem_singleton_self _)⟩
    · rw [if_neg hcond]
      exact ⟨List.nodup_singleton _,
        by intro y hy; rw [List.mem_singleton] at hy; subst hy; exact ⟨hTC0, hTCC⟩,
        List.mem_singleton_self _⟩
  obtain ⟨hUnd, hUb, hUmem⟩ := upGo_inv 8 (guessSetAfterDown t rng).1.1
    (guessSetAfterDown t rng).1.2 (coerceTrue t) ((SeededRNG.randInt rng 40 60).1)
    hAnd hAb hTC0 (le_trans (by norm_num) (randInt_ge rng (by norm_num)))
  have hUTC : coerceTrue t ∈ (upGo 8 (guessSetAfterDown t rng).1.1
      (guessSetAfterDown t rng).1.2 (coerceTrue t) ((SeededRNG.randInt rng 40 60).1)).1 :=
    hUmem _ hATC
  have hUne : (upGo 8 (guessSetAfterDown t rng).1.1 (guessSetAfterDown t rng).1.2
      (coerceTrue t) ((SeededRNG.randInt rng 40 60).1)).1 ≠ [] :=
    List.ne_nil_of_mem hUTC
  obtain ⟨hFnd, hFb, hFmem, hFlen⟩ :
      ((fallbackPhase (upGo 8 (guessSetAfterDown t rng).1.1 (guessSetAfterDown t rng).1.2
          (coerceTrue t) ((SeededRNG.randInt rng 40 60).1)).1).Nodup ∧
        (∀ y ∈ fallbackPhase (upGo 8 (guessSetAfterDown t rng).1.1
            (guessSetAfterDown t rng).1.2 (coerceTrue t)
            ((SeededRNG.randInt rng 40 60).1)).1, 0 ≤ y ∧ y ≤ CAP) ∧
        (∀ a ∈ (upGo 8 (guessSetAfterDown t rng).1.1 (guessSetAfterDown t rng).1.2
            (coerceTrue t) ((SeededRNG.randInt rng 40 60).1)).1,
          a ∈ fallbackPhase (upGo 8 (guessSetAfterDown t rng).1.1
            (guessSetAfterDown t rng).1.2 (coerceTrue t)
            ((SeededRNG.randInt rng 40 60).1)).1) ∧
        (MIN_ANSWERS ≤ (fallbackPhase (upGo 8 (guessSetAfterDown t rng).1.1
            (guessSetAfterDown t rng).1.2 (coerceTrue t)
            ((SeededRNG.randInt rng 40 60).1)).1).length ∨
          (CAP : Int) ∈ fallbackPhase (upGo 8 (guessSetAfterDown t rng).1.1
            (guessSetAfterDown t rng).1.2 (coerceTrue t)
            ((SeededRNG.randInt rng 40 60).1)).1)) := by
    unfold fallbackPhase
    by_cases hlen : (upGo 8 (guessSetAfterDown t rng).1.1 (guessSetAfterDown t rng).1.2
        (coerceTrue t) ((SeededRNG.randInt rng 40 60).1)).1.length < MIN_ANSWERS
    · rw [if_pos hlen]
      exact fallbackGo_inv 8 _ _ hUnd hUb le_listMax (listMax_mem hUne)
        ((hUb _ (listMax_mem hUne)).2) (by simp only [MIN_ANSWERS]; omega)
    · rw [if_neg hlen]
      exact ⟨hUnd, hUb, fun a ha => ha, Or.inl (by omega)⟩
  obtain ⟨hPnd, hPb, hPTC, hPCAP, hPlen⟩ := perturbPhase_inv (coerceTrue t)
    (fallbackPhase (upGo 8 (guessSetAfterDown t rng).1.1 (guessSetAfterDown t rng).1.2
      (coerceTrue t) ((SeededRNG.randInt rng 40 60).1)).1)
    (upGo 8 (guessSetAfterDown t rng).1.1 (guessSetAfterDown t rng).1.2
      (coerceTrue t) ((SeededRNG.randInt rng 40 60).1)).2 hFnd hFb
  have hbuild : buildGuessSet t rng =
      (shuffle (perturbPhase (coerceTrue t)
          (fallbackPhase (upGo 8 (guessSetAfterDown t rng).1.1
            (guessSetAfterDown t rng).1.2 (coerceTrue t)
            ((SeededRNG.randInt rng 40 60).1)).1)
          (upGo 8 (guessSetAfterDown t rng).1.1 (guessSetAfterDown t rng).1.2
            (coerceTrue t) ((SeededRNG.randInt rng 40 60).1)).2).1
        (perturbPhase (coerceTrue t)
          (fallbackPhase (upGo 8 (guessSetAfterDown t rng).1.1
            (guessSetAfterDown t rng).1.2 (coerceTrue t)
            ((SeededRNG.randInt rng 40 60).1)).1)
          (upGo 8 (guessSetAfterDown t rng).1.1 (guessSetAfterDown t rng).1.2
            (coerceTrue t) ((SeededRNG.randInt rng 40 60).1)).2).2).1 := rfl
  rw [hbuild]
  have hperm := shuffle_perm (perturbPhase (coerceTrue t)
      (fallbackPhase (upGo 8 (guessSetAfterDown t rng).1.1
        (guessSetAfterDown t rng).1.2 (coerceTrue t)
        ((SeededRNG.randInt rng 40 60).1)).1)
      (upGo 8 (guessSetAfterDown t rng).1.1 (guessSetAfterDown t rng).1.2
        (coerceTrue t) ((SeededRNG.randInt rng 40 60).1)).2).1
    (perturbPhase (coerceTrue t)
      (fallbackPhase (upGo 8 (guessSetAfterDown t rng).1.1
        (guessSetAfterDown t rng).1.2 (coerceTrue t)
        ((SeededRNG.randInt rng 40 60).1)).1)
      (upGo 8 (guessSetAfterDown t rng).1.1 (guessSetAfterDown t rng).1.2
        (coerceTrue t) ((SeededRNG.randInt rng 40 60).1)).2).2
  refine ⟨hperm.mem_iff.mpr (hPTC (hFmem _ hUTC)), hperm.nodup_iff.mpr hPnd,
    fun x hx => hPb x (hperm.mem_iff.mp hx), ?_⟩
  rcases hFlen with hlen | hcap
  · left
    rw [hperm.length_eq, hPlen]
    exact hlen
  · right
    exact hperm.mem_iff.mpr (hPCAP hcap)

/-- Claim C1, counterexample: at the capped true value `T = CAP` (with
generator state 0, where `maxDownGuesses` draws as 4) `buildGuessSet`
returns only 5 values  -  the upward phase is blocked at `CAP` and the
fallback cannot exceed `CAP`  -  so the claimed "size at least 6" fails. -/
theorem C1_counterexample : (buildGuessSet 200000000000 0).length = 5 := by decide

/-- Claim C1, amended: for every input and generator state the returned set
contains the coerced true value `TC`, its members are distinct non-negative
integers at most `CAP`, and it has at least 6 members except when the values
are clipped at `CAP`, in which case `CAP` itself is among the answers (at
`T = CAP` a set of 5 can result); for `T = 0` the downward phase contributes
nothing (the set after the downward phase is exactly `[0]`). -/
theorem C1_guess_set_invariants :
    (∀ (t : Int) (rng : Nat),
        coerceTrue t ∈ buildGuessSet t rng ∧
        (buildGuessSet t rng).Nodup ∧
        (∀ x ∈ buildGuessSet t rng, 0 ≤ x ∧ x ≤ CAP) ∧
        (MIN_ANSWERS ≤ (buildGuessSet t rng).length ∨ (CAP : Int) ∈ buildGuessSet t rng)) ∧
    (∀ rng : Nat, (guessSetAfterDown 0 rng).1.1 = [0]) := by
  constructor
  · exact buildGuessSet_inv
  · intro rng
    have hms : (40 : Int) ≤ (SeededRNG.randInt rng 40 60).1 := randInt_ge rng (by norm_num)
    have hTC : coerceTrue 0 = 0 := by decide
    simp only [guessSetAfterDown, hTC]
    rw [if_neg (by omega : ¬ (0 : Int) ≥ (SeededRNG.randInt rng 40 60).1)]

theorem C1_guess_set_invariants_witness :
    (7036 : Int) ∈ buildGuessSet 7036 0 ∧ (0 ≤ (7036 : Int) ∧ (7036 : Int) ≤ CAP) :=
  ⟨by decide, (C1_guess_set_invariants.1 7036 0).2.2.1 7036 (by decide)⟩

theorem perturbReplace_pair_ne (l : List Int) (m a b : Int) (hm : m ∈ l) :
    perturbReplace l m [a, b] ≠ l ↔ a ≠ m ∧ (a ∉ l ∨ b ∉ l) := by
  have hchange : ∀ v : Int, v ∉ l → l.erase m ++ [v] ≠ l := by
    intro v hv heq
    apply hv
    rw [← heq]
    exact List.mem_append_right _ (by simp)
  simp only [perturbReplace]
  by_cases h1 : a = m
  · rw [if_pos h1]
    constructor
    · intro hcon; exact absurd rfl hcon
    · rintro ⟨hne1, _⟩; exact absurd h1 hne1
  · rw [if_neg h1]
    by_cases h2 : a ∈ l
    · rw [if_pos h2]
      by_cases h3 : b = m
      · rw [if_pos h3]
        constructor
        · intro hcon; exact absurd rfl hcon
        · rintro ⟨_, hc | hc⟩
          · exact absurd h2 hc
          · exact absurd (show b ∈ l by rw [h3]; exact hm) hc
      · rw [if_neg h3]
        by_cases h4 : b ∈ l
        · rw [if_pos h4]
          constructor
          · intro hcon; exact absurd rfl hcon
          · rintro ⟨_, hc | hc⟩
            · exact absurd h2 hc
            · exact absurd h4 hc
        · rw [if_neg h4]
          constructor
          · intro _; exact ⟨h1, Or.inr h4⟩
          · intro _; exact hchange b h4
    · rw [if_neg h2]
      constructor
      · intro _; exact ⟨h1, Or.inl h2⟩
      · intro _; exact hchange a h2

/-- Claim C8, counterexample: from generator state 8 the first coin flip is
below 0.5 but the second is not; the claim says either failed flip leaves
the set unchanged, yet the minimum 3 of the set `[7, 3]` (true value 7) is
still replaced, giving `[7, 1]`  -  the second draw only chooses the
preference order between 0 and 1. -/
theorem C8_counterexample :
    (SeededRNG.next 8).2 < HALF ∧ HALF ≤ (SeededRNG.next (SeededRNG.next 8).1).2 ∧
      (perturbPhase 7 [7, 3] 8).1 = [7, 1] := by decide

/-- Claim C8, amended: the lowest-option tweak changes the set exactly when
the minimum is not the true value, the first draw is below 0.5, the minimum
is below 20, and the candidate preferred by the second draw (0 when the
draw is below 0.5, else 1) differs from the minimum while the preferred
candidate or the other one is absent from the set; the second draw chooses
the preference order only  -  it does not gate the replacement. -/
theorem C8_perturb_characterization (TC : Int) (l : List Int) (rng : Nat) :
    (perturbPhase TC l rng).1 ≠ l ↔
      (l ≠ [] ∧ listMin l ≠ TC ∧ (SeededRNG.next rng).2 < HALF ∧ listMin l < 20 ∧
        ((if (SeededRNG.next (SeededRNG.next rng).1).2 < HALF then (0 : Int) else 1)
            ≠ listMin l ∧
          ((if (SeededRNG.next (SeededRNG.next rng).1).2 < HALF then (0 : Int) else 1) ∉ l ∨
            (if (SeededRNG.next (SeededRNG.next rng).1).2 < HALF then (1 : Int) else 0) ∉ l))) := by
  simp only [perturbPhase]
  by_cases hlen : l.length > 0
  · rw [if_pos hlen]
    have hne : l ≠ [] := by
      intro h; subst h; simp at hlen
    by_cases hmt : listMin l ≠ TC
    · rw [if_pos hmt]
      by_cases hflip : (SeededRNG.next rng).2 < HALF ∧ listMin l < 20
      · rw [if_pos hflip]
        by_cases h2 : (SeededRNG.next (SeededRNG.next rng).1).2 < HALF
        · simp only [if_pos h2]
          rw [perturbReplace_pair_ne l (listMin l) 0 1 (listMin_mem hne)]
          simp [hne, hmt, hflip.1, hflip.2]
        · simp only [if_neg h2]
          rw [perturbReplace_pair_ne l (listMin l) 1 0 (listMin_mem hne)]
          simp [hne, hmt, hflip.1, hflip.2]
      · rw [if_neg hflip]
        constructor
        · intro hcon; exact absurd rfl hcon
        · rintro ⟨_, _, hA, hB, _⟩; exact absurd (⟨hA, hB⟩ : _ ∧ _) hflip
    · rw [if_neg hmt]
      constructor
      · intro hcon; exact absurd rfl hcon
      · rintro ⟨_, hmt', _⟩; exact absurd hmt' hmt
  · rw [if_neg hlen]
    constructor
    · intro hcon; exact absurd rfl hcon
    · rintro ⟨hne', _⟩
      exact absurd (List.length_eq_zero.mp (by omega)) hne'

end ReviewGuesser
